import Mathlib

/-!
Shallow embedding of the background-task executor `src/Worker.js`.

The script's numeric computations on the verified paths are integer valued;
they are modelled with exact arithmetic (`Nat`, `Int`, `ℚ`).  The non-finite
values that JavaScript arithmetic can produce (`NaN`, `Infinity`,
`-Infinity`, as returned by `Math.max()`, `Math.min()` and division by zero)
are modelled by the extended number type `JSNum`.  Emission of messages via
`self.postMessage` is modelled by returning the list of messages emitted, in
order; a handler that can `throw` returns the messages emitted before the
throw together with an optional error string, and the router appends the
corresponding error response, mirroring the `try`/`catch` in the message
listener.
-/

/-- JavaScript numbers as manipulated by `handleCalculate`: exact rationals
extended with the non-finite values `NaN`, `Infinity` and `-Infinity`. -/
inductive JSNum
  | num (q : ℚ)
  | nan
  | inf
  | ninf
deriving DecidableEq

/-- Addition of JavaScript numbers (`acc + num` in the `reduce` calls). -/
def jsAdd : JSNum → JSNum → JSNum
  | .num a, .num b => .num (a + b)
  | .nan, _ => .nan
  | _, .nan => .nan
  | .inf, .ninf => .nan
  | .ninf, .inf => .nan
  | .inf, _ => .inf
  | _, .inf => .inf
  | .ninf, _ => .ninf
  | _, .ninf => .ninf

/-- Multiplication of JavaScript numbers (`acc * num` in the `reduce` call). -/
def jsMul : JSNum → JSNum → JSNum
  | .num a, .num b => .num (a * b)
  | .nan, _ => .nan
  | _, .nan => .nan
  | .inf, .num a => if a = 0 then .nan else if 0 < a then .inf else .ninf
  | .num a, .inf => if a = 0 then .nan else if 0 < a then .inf else .ninf
  | .ninf, .num a => if a = 0 then .nan else if 0 < a then .ninf else .inf
  | .num a, .ninf => if a = 0 then .nan else if 0 < a then .ninf else .inf
  | .inf, .inf => .inf
  | .inf, .ninf => .ninf
  | .ninf, .inf => .ninf
  | .ninf, .ninf => .inf

/-- Division of JavaScript numbers; `0 / 0` is `NaN`, `x / 0` for `x ≠ 0` is
a signed infinity, exactly as in IEEE-754 / JavaScript. -/
def jsDiv : JSNum → JSNum → JSNum
  | .num a, .num b =>
      if b = 0 then (if a = 0 then .nan else if 0 < a then .inf else .ninf)
      else .num (a / b)
  | .nan, _ => .nan
  | _, .nan => .nan
  | .inf, .inf => .nan
  | .inf, .ninf => .nan
  | .ninf, .inf => .nan
  | .ninf, .ninf => .nan
  | .inf, .num b => if 0 ≤ b then .inf else .ninf
  | .ninf, .num b => if 0 ≤ b then .ninf else .inf
  | .num _, .inf => .num 0
  | .num _, .ninf => .num 0

/-- Binary maximum as computed by `Math.max`: `NaN` is absorbing and
`-Infinity` is the identity (`Math.max()` with no argument is `-Infinity`). -/
def jsMax : JSNum → JSNum → JSNum
  | .nan, _ => .nan
  | _, .nan => .nan
  | .inf, _ => .inf
  | _, .inf => .inf
  | .ninf, y => y
  | x, .ninf => x
  | .num a, .num b => .num (max a b)

/-- Binary minimum as computed by `Math.min`: `NaN` is absorbing and
`Infinity` is the identity (`Math.min()` with no argument is `Infinity`). -/
def jsMin : JSNum → JSNum → JSNum
  | .nan, _ => .nan
  | _, .nan => .nan
  | .ninf, _ => .ninf
  | _, .ninf => .ninf
  | .inf, y => y
  | x, .inf => x
  | .num a, .num b => .num (min a b)

/-- Finiteness of a JavaScript number (`Number.isFinite`). -/
def jsIsFinite : JSNum → Bool
  | .num _ => true
  | _ => false

/-! Binary64 rounding, for the handlers' percentage computations
`Math.floor((k / n) * 100)`: an IEEE-754 division rounded to nearest (ties
to even), a multiplication rounded the same way, then `Math.floor`.
`rnd` rounds a nonnegative rational to the nearest binary64 value; the
exponent is left unbounded (subnormal underflow and overflow are out of
reach of every value these computations produce from representable
inputs). -/

/-- Round a rational to the nearest integer, ties to even. -/
def rhe (q : ℚ) : ℤ :=
  if q - ⌊q⌋ < 1 / 2 then ⌊q⌋
  else if 1 / 2 < q - ⌊q⌋ then ⌊q⌋ + 1
  else if ⌊q⌋ % 2 = 0 then ⌊q⌋ else ⌊q⌋ + 1

/-- Round a nonnegative rational to the nearest binary64 value: scale into
the 53-bit mantissa range by the floored base-2 logarithm, round ties to
even, and scale back. -/
def rnd (v : ℚ) : ℚ :=
  if v ≤ 0 then 0
  else ((rhe (v * (2 : ℚ) ^ ((52 : ℤ) - Int.log 2 v)) : ℚ))
    * (2 : ℚ) ^ (Int.log 2 v - (52 : ℤ))

/-- The percentage `Math.floor((i / n) * 100)` as computed in binary64 for
a nonzero denominator (the value is an integer; it is kept as the rational
the `progress` field carries). -/
def pctQ (i n : Nat) : ℚ := ((⌊rnd (rnd ((i : ℚ) / (n : ℚ)) * 100)⌋ : ℤ) : ℚ)

/-- The `progress` field `Math.floor((i / n) * 100)` as a JavaScript
number: division by a zero denominator yields `Infinity` (or `NaN` for
`0 / 0`), which `* 100` and `Math.floor` propagate. -/
def pctFloat (i n : Nat) : JSNum :=
  if n = 0 then (if i = 0 then JSNum.nan else JSNum.inf)
  else JSNum.num (pctQ i n)

/-- Outbound messages of the worker (`self.postMessage` payloads).  One
constructor per shape of object posted by the script; the `timestamp` field
(wall-clock time of emission), the floating-point `dummyResult` /
`duration` strings, and the `result` array of `processData` (whose
element values pass through `Math.sqrt` and `Number(v.toFixed(4))`,
floating-point computations no verified property mentions) are not part of
the model. -/
inductive Msg
  | ready (id message : String) (supportedCommands : List String)
  | errorMsg (id error : String)
  | progressMsg (id : String) (progress : JSNum)
      (extras : List (String × Nat))
  | calcSuccess (id : String) (result : JSNum) (operation : String)
  | procSuccess (id : String) (originalLength : Nat)
  | simSuccess (id result : String) (totalDuration : Nat)
  | fibSuccess (id : String) (result : List Nat) (length nthValue : Nat)
  | primeSuccess (id : String) (result : List Nat) (count limitEcho : Nat)
  | sortSuccess (id : String) (result : List Int) (algorithm : String)
      (originalLength : Nat)
deriving DecidableEq

/-- Status tag of an outbound message (the `status` field). -/
inductive Status
  | ready
  | progress
  | success
  | error
deriving DecidableEq

/-- The `status` field carried by each message shape. -/
def statusOf : Msg → Status
  | .ready .. => .ready
  | .errorMsg .. => .error
  | .progressMsg .. => .progress
  | _ => .success

/-- The `id` field carried by each message shape. -/
def msgIdOf : Msg → String
  | .ready i .. => i
  | .errorMsg i _ => i
  | .progressMsg i .. => i
  | .calcSuccess i .. => i
  | .procSuccess i .. => i
  | .simSuccess i .. => i
  | .fibSuccess i .. => i
  | .primeSuccess i .. => i
  | .sortSuccess i .. => i

/-- Whether a message is a progress message. -/
def isProgressB (m : Msg) : Bool := statusOf m == .progress

/-- Whether a message is the startup ready message. -/
def isReadyB (m : Msg) : Bool := statusOf m == .ready

/-- The id actually used in the router's error responses: `id || 'unknown'`.
A missing id and the (falsy) empty string both fall back to `"unknown"`. -/
def fallbackId : Option String → String
  | none => "unknown"
  | some s => if s = "" then "unknown" else s

/-- Wrap a handler result the way the message listener's `try`/`catch` does:
the messages posted before a throw are followed by a single error response
carrying the exception's message. -/
def runHandler (p : List Msg × Option String) (rid : String) : List Msg :=
  p.1 ++ (match p.2 with
    | some e => [Msg.errorMsg rid e]
    | none => [])

/-- Handler `handleCalculate` of `src/Worker.js`: fold-based `sum`,
`average`, `max`, `min`, `multiply`; an unsupported operation throws
(`不支持的操作`) before any message is posted.  `Math.max(...numbers)` and
`Math.min(...numbers)` are folds over the spread arguments seeded with the
identities `-Infinity` and `Infinity` of the respective operations. -/
def handleCalculate (operation : String) (numbers : List JSNum)
    (id : String) : List Msg × Option String :=
  match operation with
  | "sum" =>
      ([Msg.calcSuccess id (numbers.foldl jsAdd (.num 0)) operation], none)
  | "average" =>
      ([Msg.calcSuccess id
        (jsDiv (numbers.foldl jsAdd (.num 0)) (.num numbers.length))
        operation], none)
  | "max" =>
      ([Msg.calcSuccess id (numbers.foldl jsMax .ninf) operation], none)
  | "min" =>
      ([Msg.calcSuccess id (numbers.foldl jsMin .inf) operation], none)
  | "multiply" =>
      ([Msg.calcSuccess id (numbers.foldl jsMul (.num 1)) operation], none)
  | _ => ([], some ("不支持的操作: " ++ operation))

/-- The `calculate` path of the router: run the handler and convert a throw
into the single error response of the listener's `catch` block. -/
def runCalculate (operation : String) (numbers : List JSNum)
    (id : String) : List Msg :=
  runHandler (handleCalculate operation numbers id) id

/-- The linear merge of `mergeSort` (`function merge(left, right)`), with the
element comparison `left[i] < right[j]` abstracted as `lt`, exactly as the
untyped source applies `<` to whatever elements the arrays hold: while both
sides are nonempty push the strictly smaller head — the right head when the
comparison fails — then append the remainders. -/
def merge (lt : α → α → Bool) : List α → List α → List α
  | [], r => r
  | l, [] => l
  | a :: l, b :: r =>
      if lt a b then a :: merge lt l (b :: r) else b :: merge lt (a :: l) r
termination_by l r => l.length + r.length

/-- Top-down merge sort (`function mergeSort(arr)`): split at
`Math.floor(arr.length / 2)` and merge the recursively sorted halves. -/
def mergeSort (lt : α → α → Bool) (arr : List α) : List α :=
  if _h : arr.length ≤ 1 then arr
  else
    let mid := arr.length / 2
    merge lt (mergeSort lt (arr.take mid)) (mergeSort lt (arr.drop mid))
termination_by arr.length
decreasing_by
  · simp only [List.length_take]
    omega
  · simp only [List.length_drop]
    omega

/-- Comparison used when the worker sorts numbers. -/
def intLt (a b : Int) : Bool := decide (a < b)

/-- `mergeSort` as invoked on a numeric array. -/
def mergeSortInt (arr : List Int) : List Int := mergeSort intLt arr

/-- Quicksort (`function quickSort(arr)`): pivot at the middle index, one
pass partitioning into `left` / `equal` / `right` by the `if` / `else if` /
`else` chain, then concatenation of the sorted pieces. -/
def quickSort (arr : List Int) : List Int :=
  if h : arr.length ≤ 1 then arr
  else
    let pivot := arr.get ⟨arr.length / 2, by omega⟩
    let left := arr.filter (fun x => decide (x < pivot))
    let right := arr.filter (fun x => !decide (x < pivot) && decide (x > pivot))
    let equal := arr.filter (fun x => !decide (x < pivot) && !decide (x > pivot))
    quickSort left ++ equal ++ quickSort right
termination_by arr.length
decreasing_by
  all_goals
    refine List.length_filter_lt_length_iff_exists.mpr
      ⟨arr.get ⟨arr.length / 2, by omega⟩, arr.get_mem _ _, by simp⟩

/-- One truncated bubble pass: `k` is the number of adjacent comparisons
still to perform (the inner loop `for (j = 0; j < n - i - 1; j++)`),
swapping when `arr[j] > arr[j + 1]`. -/
def bpassN : Nat → List Int → List Int
  | k + 1, a :: b :: t =>
      if decide (a > b) then b :: bpassN k (a :: t) else a :: bpassN k (b :: t)
  | _, l => l

/-- Bubble sort (`function bubbleSort(arr)`): `n - 1` outer passes, pass `i`
performing `n - i - 1` adjacent comparisons.  In the script this mutates its
argument in place and returns it; the value computed here is the final
content of that array. -/
def bubbleList (arr : List Int) : List Int :=
  let n := arr.length
  (List.range (n - 1)).foldl (fun acc i => bpassN (n - i - 1) acc) arr

/-- Reference ascending total-order sort (the specification side). -/
def referenceSort (l : List Int) : List Int :=
  List.insertionSort (· ≤ ·) l

/-! The `sortArray` handler manipulates JavaScript arrays, which are mutable
heap objects passed by reference.  The heap is modelled as a list of array
contents (`Store`), a JavaScript array value as an index into it, the spread
copy `[...array]` as allocation of a fresh cell, and `bubbleSort`'s in-place
mutation (and the fallback's in-place `sort`) as overwriting of the cell the
argument references. -/

/-- The heap of array objects: cell `r` holds the contents of array `r`. -/
abbrev Store := List (List Int)

/-- Read the contents of array `r` (empty for a dangling reference, which
never arises on the verified paths). -/
def storeGet (s : Store) (r : Nat) : List Int := s.getD r []

/-- In-place `bubbleSort(a)` on the array referenced by `r`: the cell is
overwritten with the final content of the adjacent-swap passes, and the
function's return value is that same (mutated) array. -/
def bubbleSortInPlace (s : Store) (r : Nat) : Store :=
  s.set r (bubbleList (storeGet s r))

/-- In-place fallback `[...array].sort((a, b) => a - b)` on the array
referenced by `r`: the numeric-comparator native sort, in place. -/
def nativeSortInPlace (s : Store) (r : Nat) : Store :=
  s.set r (referenceSort (storeGet s r))

/-- Handler `handleSortArray` of `src/Worker.js` on a valid array input:
allocate the private copy `[...array]`, dispatch on `algorithm` (default
`'quick'`), and post one success response carrying the sorted result, the
algorithm and the original length.  `quickSort` and `mergeSort` read the
copy and build fresh lists; `bubbleSort` and the native fallback sort the
copy in place.  The wall-clock `duration` string is not modelled. -/
def handleSortArray (s : Store) (r : Nat) (algorithm : Option String)
    (id : String) : Store × List Msg :=
  let array := storeGet s r
  let alg := algorithm.getD "quick"
  let copyRef := s.length
  let s1 := s ++ [array]
  match alg with
  | "quick" =>
      (s1, [Msg.sortSuccess id (quickSort (storeGet s1 copyRef)) alg array.length])
  | "merge" =>
      (s1, [Msg.sortSuccess id (mergeSortInt (storeGet s1 copyRef)) alg array.length])
  | "bubble" =>
      let s2 := bubbleSortInPlace s1 copyRef
      (s2, [Msg.sortSuccess id (storeGet s2 copyRef) alg array.length])
  | _ =>
      let s2 := nativeSortInPlace s1 copyRef
      (s2, [Msg.sortSuccess id (storeGet s2 copyRef) alg array.length])

/-- The loop body of `handleProcessData` over the remaining indices:
every `Math.floor(length / 10)`-th index (when `length > 10`) posts a
progress message with the binary64 percentage.  The per-element value
computation (`double`, `square`, `sqrt`, `normalize`, then
`Number(value.toFixed(4))`) runs alongside; its floating-point results are
the omitted `result` payload of the success message and influence no
emission structure. -/
def procStep (transform : String) (dataset : List Int) (id : String) :
    List Nat → List Msg
  | [] => []
  | i :: rest =>
      (if dataset.length > 10 && i % (dataset.length / 10) == 0 then
        [Msg.progressMsg id (pctFloat i dataset.length)
          [("processed", i + 1), ("total", dataset.length)]]
      else []) ++ procStep transform dataset id rest

/-- Handler `handleProcessData` of `src/Worker.js`: traverse the dataset
with interleaved progress messages, then post one success response (with
the original length; the processed-values payload is outside the model). -/
def handleProcessData (transform : String) (dataset : List Int)
    (id : String) : List Msg :=
  procStep transform dataset id (List.range dataset.length)
    ++ [Msg.procSuccess id dataset.length]

/-- The interval callback of `handleSimulateWork`, unfolded: each firing
increments `currentStep`, posts a progress message with the floored
percentage of steps completed, and on reaching `steps` clears the interval
and posts the terminal success.  `fuel` bounds the number of firings (any
value at least `steps - currentStep` is exact); the wall-clock spacing
`duration / steps` and the dummy trigonometric accumulation affect no
emitted field in the model. -/
def simulateLoop (id : String) (duration steps : Nat) :
    Nat → Nat → List Msg
  | 0, _ => []
  | fuel + 1, currentStep =>
      let c := currentStep + 1
      let p := Msg.progressMsg id (pctFloat c steps)
        [("currentStep", c), ("totalSteps", steps)]
      if c ≥ steps then
        [p, Msg.simSuccess id "模拟工作完成" duration]
      else
        p :: simulateLoop id duration steps fuel c

/-- Handler `handleSimulateWork` of `src/Worker.js` (`duration` default
3000, `steps` default 100): the full emission sequence of the stepped
interval loop. -/
def handleSimulateWork (duration steps : Option Nat) (id : String) :
    List Msg :=
  let d := duration.getD 3000
  let st := steps.getD 100
  simulateLoop id d st (st + 1) 0

/-- Floor of the base-2 logarithm on naturals, with an explicit fuel
argument so it is structurally recursive: `flog2A fuel n` halves `n` until
it reaches `1`, and `fuel ≥ n` iterations always suffice. -/
def flog2A : Nat → Nat → Nat
  | 0, _ => 0
  | fuel + 1, n => if n ≤ 1 then 0 else flog2A fuel (n / 2) + 1

/-- Floor of the base-2 logarithm on naturals. -/
def flog2 (n : Nat) : Nat := flog2A n n

/-- Round a nonnegative integer to the nearest IEEE-754 binary64 value
(round half to even at 53 significant bits; exact below `2 ^ 53`).  The
script computes `a + b` on JavaScript numbers: on the integer values of
the Fibonacci loop the exact sum is an integer, and binary64 addition
returns that integer rounded this way (no overflow occurs below
`fib(1000) < 2 ^ 1024`). -/
def roundDbl (n : Nat) : Nat :=
  if n < 2 ^ 53 then n
  else
    let k := flog2 n - 52
    let q := n / 2 ^ k
    let r := n % 2 ^ k
    let half := 2 ^ (k - 1)
    if r < half then q * 2 ^ k
    else if half < r then (q + 1) * 2 ^ k
    else if q % 2 = 0 then q * 2 ^ k else (q + 1) * 2 ^ k

/-- The inner helper `fib` of `handleFibonacci`: `num` if `num <= 1`, else
the two-accumulator loop `[a, b] = [b, a + b]` run from `i = 2` to `num`,
returning `b`.  The loop runs `num - 1` times; each addition is a binary64
addition, so each new value is the exact sum rounded to 53 significant
bits. -/
def fibLoop : Nat → Nat × Nat → Nat
  | 0, p => p.2
  | k + 1, p => fibLoop k (p.2, roundDbl (p.1 + p.2))

/-- The `fib` helper itself. -/
def fibJS (num : Nat) : Nat :=
  if num ≤ 1 then num else fibLoop (num - 1) (0, 1)

/-- The loop of `handleFibonacci` over the remaining indices: push `fib(i)`,
and every `Math.floor(n / 10)`-th index (when `n > 10`) post a progress
message with the truncated percentage. -/
def fibStep (n : Nat) (id : String) : List Nat → List Nat × List Msg
  | [] => ([], [])
  | i :: rest =>
      let emitted :=
        if n > 10 && i % (n / 10) == 0 then
          [Msg.progressMsg id (pctFloat i n)
            [("current", i), ("total", n)]]
        else []
      let tail := fibStep n id rest
      (fibJS i :: tail.1, emitted ++ tail.2)

/-- Handler `handleFibonacci` of `src/Worker.js` (`n` default 20): throw
before any emission when `n < 0 || n > 1000`, otherwise build
`fib(0) .. fib(n)` with interleaved progress messages and post one success
response with the sequence, its length and `sequence[n]`. -/
def handleFibonacci (nOpt : Option Int) (id : String) :
    List Msg × Option String :=
  let n := nOpt.getD 20
  if n < 0 || n > 1000 then ([], some "n必须在0到1000之间")
  else
    let nn := n.toNat
    let r := fibStep nn id (List.range (nn + 1))
    (r.2 ++ [Msg.fibSuccess id r.1 r.1.length (r.1.getD nn 0)], none)

/-- The `fibonacci` path of the router. -/
def runFibonacci (nOpt : Option Int) (id : String) : List Msg :=
  runHandler (handleFibonacci nOpt id) id

/-- Point update of the sieve array: `isPrime[j] = false`. -/
def updFalse (f : Nat → Bool) (j : Nat) : Nat → Bool :=
  fun n => if n = j then false else f n

/-- The inner marking loop of the sieve:
`for (let j = i * i; j <= limit; j += i) isPrime[j] = false`.  `fuel` bounds
the number of iterations; any value at least `limit + 1 - j` is exact, since
each iteration advances `j` by `i ≥ 1`. -/
def markLoop (limit i : Nat) : Nat → Nat → (Nat → Bool) → Nat → Bool
  | 0, _, f => f
  | fuel + 1, j, f =>
      if j ≤ limit then markLoop limit i fuel (j + i) (updFalse f j) else f

/-- The sieve array after `new Array(limit + 1).fill(true)` and
`isPrime[0] = isPrime[1] = false` (as a total function: only indices up to
`limit` are ever read or written). -/
def sieveInit : Nat → Bool := fun n => !(n == 0 || n == 1)

/-- One iteration of the sieve's outer loop at index `i`: if `isPrime[i]`,
record `i` and mark its multiples from `i * i`; then, every
`Math.floor(limit / 10)`-th index (when `limit > 100`), post a progress
message carrying the running count of primes found. -/
def sieveStep (limit : Nat) (id : String)
    (st : (Nat → Bool) × List Nat × List Msg) (i : Nat) :
    (Nat → Bool) × List Nat × List Msg :=
  let st1 :=
    if st.1 i then
      (markLoop limit i (limit + 1) (i * i) st.1, st.2.1 ++ [i])
    else (st.1, st.2.1)
  let msgs1 :=
    if limit > 100 && i % (limit / 10) == 0 then
      st.2.2 ++ [Msg.progressMsg id (pctFloat i limit)
        [("current", i), ("total", limit), ("primesFound", st1.2.length)]]
    else st.2.2
  (st1.1, st1.2, msgs1)

/-- The sieve's outer loop `for (let i = 2; i <= limit; i++)`. -/
def sieveRun (limit : Nat) (id : String) :
    (Nat → Bool) × List Nat × List Msg :=
  (List.range' 2 (limit - 1)).foldl (sieveStep limit id) (sieveInit, [], [])

/-- Handler `handlePrimeNumbers` of `src/Worker.js` (`limit` default 100):
throw before any emission when `limit < 2 || limit > 100000`, otherwise run
the sieve and post one success response with the prime list, its count and
the limit. -/
def handlePrimeNumbers (limitOpt : Option Int) (id : String) :
    List Msg × Option String :=
  let limit := limitOpt.getD 100
  if limit < 2 || limit > 100000 then ([], some "limit必须在2到100000之间")
  else
    let l := limit.toNat
    let st := sieveRun l id
    (st.2.2 ++ [Msg.primeSuccess id st.2.1 st.2.1.length l], none)

/-- The `primeNumbers` path of the router. -/
def runPrimeNumbers (limitOpt : Option Int) (id : String) : List Msg :=
  runHandler (handlePrimeNumbers limitOpt id) id

/-- The `sortArray` path of the router, including the `Array.isArray`
validation: a request whose `array` field is not an array (`none`) throws
`输入必须是一个数组`, which the listener's `catch` turns into one error
response. -/
def runSortArray (s : Store) (arrayRef : Option Nat)
    (algorithm : Option String) (rid : String) : Store × List Msg :=
  match arrayRef with
  | none => (s, [Msg.errorMsg rid "输入必须是一个数组"])
  | some r => handleSortArray s r algorithm rid

/-- An inbound request `{ command, data, id }`, with the `data` fields of
all six handlers flattened into one record, mirroring destructuring of a
dynamic object: absent optional fields are `none` (handlers apply their
defaults), `arrayRef` is `none` when `data.array` is not an array, and
`numbers` / `dataset` are the numeric sequences read by `calculate` /
`processData`. -/
structure Request where
  command : String
  id : Option String
  operation : String
  numbers : List JSNum
  transform : String
  dataset : List Int
  duration : Option Nat
  steps : Option Nat
  n : Option Int
  limit : Option Int
  arrayRef : Option Nat
  algorithm : Option String

/-- The six commands of the listener's `switch`. -/
def knownCommands : List String :=
  ["calculate", "processData", "simulateWork", "fibonacci", "primeNumbers",
   "sortArray"]

/-- The message listener of `src/Worker.js`: dispatch on `command`, post a
single error response naming an unknown command, and convert any throw into
a single error response (`runHandler`).  The id passed on is
`id || 'unknown'`; for a request carrying a nonempty id this is the
request's id, and no verified property concerns the success emissions of an
id-less request. -/
def route (s : Store) (req : Request) : Store × List Msg :=
  let rid := fallbackId req.id
  match req.command with
  | "calculate" => (s, runCalculate req.operation req.numbers rid)
  | "processData" => (s, handleProcessData req.transform req.dataset rid)
  | "simulateWork" => (s, handleSimulateWork req.duration req.steps rid)
  | "fibonacci" => (s, runFibonacci req.n rid)
  | "primeNumbers" => (s, runPrimeNumbers req.limit rid)
  | "sortArray" => runSortArray s req.arrayRef req.algorithm rid
  | _ => (s, [Msg.errorMsg rid ("未知命令: " ++ req.command)])

/-- The one-time startup notification posted at the end of the script,
before the listener processes any request. -/
def readyMsg : Msg :=
  Msg.ready "init" "Worker已初始化，等待任务" knownCommands

/-- Sequential processing of a list of inbound requests, threading the
array heap. -/
def runRequests (s : Store) : List Request → List Msg
  | [] => []
  | req :: rest =>
      let p := route s req
      p.2 ++ runRequests p.1 rest

/-- The worker's whole emission sequence: the startup ready message, then
the responses to the inbound requests in order. -/
def workerRun (s : Store) (reqs : List Request) : List Msg :=
  readyMsg :: runRequests s reqs

/-! Claims C6 and C10: `calculate` on an empty `numbers` sequence. -/

/-- C6: `Calculate` with operation `average` and an empty `numbers` sequence
does not raise an error: the division of the sum `0` by the count `0` is
performed and a single success response is emitted whose result is the
non-finite value `NaN`. -/
theorem calculate_average_empty_nan (id : String) :
    runCalculate "average" [] id = [Msg.calcSuccess id JSNum.nan "average"] ∧
    jsIsFinite JSNum.nan = false := by
  refine ⟨?_, rfl⟩
  show runHandler (handleCalculate "average" [] id) id = _
  norm_num [handleCalculate, runHandler, jsDiv]

/-- C10: `Calculate` with operation `max` (respectively `min`) and an empty
`numbers` sequence does not raise an error: it emits a single success
response whose result is `-Infinity` (respectively `Infinity`), the fold of
`Math.max` / `Math.min` over no arguments. -/
theorem calculate_max_min_empty (id : String) :
    runCalculate "max" [] id = [Msg.calcSuccess id JSNum.ninf "max"] ∧
    runCalculate "min" [] id = [Msg.calcSuccess id JSNum.inf "min"] :=
  ⟨rfl, rfl⟩

/-! Claim C9: unknown commands. -/

/-- C9: for every inbound request whose command is not one of the six
recognized command values, the listener emits exactly one error response,
using the request's id (`id || 'unknown'`) and a message naming the unknown
command, and invokes no handler (the store is untouched and the error is
the entire output). -/
theorem unknown_command_spec (s : Store) (req : Request)
    (h : req.command ∉ knownCommands) :
    route s req =
      (s, [Msg.errorMsg (fallbackId req.id) ("未知命令: " ++ req.command)]) := by
  simp only [knownCommands, List.mem_cons, List.not_mem_nil, or_false,
    not_or] at h
  unfold route
  split <;> simp_all

/-- Witness for C9 at the concrete request `{command: "bogus", id: "x"}`. -/
theorem unknown_command_spec_witness :
    route [] ⟨"bogus", some "x", "", [], "", [], none, none, none, none,
        none, none⟩ =
      ([], [Msg.errorMsg "x" "未知命令: bogus"]) := by
  have h := unknown_command_spec []
    ⟨"bogus", some "x", "", [], "", [], none, none, none, none, none, none⟩
    (by decide)
  exact h.trans (by decide)

/-! Claim C5: `sortArray` never mutates the input array. -/

/-- Reading below the old length is unaffected by the copy allocation. -/
theorem storeGet_alloc (s : Store) (v : List Int) (rp : Nat)
    (h : rp < s.length) : storeGet (s ++ [v]) rp = storeGet s rp := by
  simp [storeGet, List.getD, List.getElem?_append, h]

/-- Writing one cell leaves every other cell unchanged. -/
theorem storeGet_set_ne (s : Store) (m rp : Nat) (v : List Int)
    (h : m ≠ rp) : storeGet (s.set m v) rp = storeGet s rp := by
  simp [storeGet, List.getD, List.getElem?_set_ne h]

/-- C5: for every `sortArray` request with a valid array input, the input
array (indeed every previously allocated array) is unchanged by the
handler: each of the four algorithm paths operates on the freshly allocated
private copy `[...array]`, even though `bubbleSort` (the in-place path,
whose effect on the cell its argument references is recorded by
`bubbleSortInPlace`) sorts its argument in place. -/
theorem sortArray_frame (s : Store) (r rp : Nat) (algorithm : Option String)
    (id : String) (h : rp < s.length) :
    storeGet (handleSortArray s r algorithm id).1 rp = storeGet s rp ∧
    (∀ s1 r1, storeGet (bubbleSortInPlace s1 r1) r1
        = bubbleList (storeGet s1 r1) ∨ s1.length ≤ r1) := by
  constructor
  · have hcopy : s.length ≠ rp := by omega
    simp only [handleSortArray]
    split
    · exact storeGet_alloc s _ rp h
    · exact storeGet_alloc s _ rp h
    · rw [bubbleSortInPlace, storeGet_set_ne _ _ _ _ hcopy]
      exact storeGet_alloc s _ rp h
    · rw [nativeSortInPlace, storeGet_set_ne _ _ _ _ hcopy]
      exact storeGet_alloc s _ rp h
  · intro s1 r1
    by_cases h1 : r1 < s1.length
    · left
      simp [bubbleSortInPlace, storeGet, List.getD, List.getElem?_set_self,
        h1]
    · right
      omega

/-! Claim C3: tie-breaking in the merge step.  Equal numeric keys are
indistinguishable as values, so stability is exhibited on key–position
pairs ordered by key alone, exactly the comparison `left[i] < right[j]`
restricted to the key. -/

/-- Key comparison on key–position pairs. -/
def keyLt (x y : Int × Nat) : Bool := decide (x.1 < y.1)

/-- C3 counterexample: merging the equal-keyed singletons `[(1, 0)]` (left
half) and `[(1, 1)]` (right half) takes the right half's element first, so
`mergeSort` on `[(1, 0), (1, 1)]` reverses the two equal-keyed elements —
it is not stable, contradicting the claim that the left half's element is
taken first. -/
theorem merge_tie_cex :
    merge keyLt [(1, 0)] [(1, 1)] = [(1, 1), (1, 0)] ∧
    mergeSort keyLt [(1, 0), (1, 1)] = [(1, 1), (1, 0)] ∧
    ([((1 : Int), (1 : Nat)), (1, 0)] ≠ [(1, 0), (1, 1)]) := by
  refine ⟨?_, ?_, by decide⟩
  · simp [merge, keyLt]
  · rw [mergeSort]
    norm_num [List.take, List.drop]
    rw [mergeSort, mergeSort]
    simp [merge, keyLt]

/-- C3 (amended): in the merge step, when the head of the left half does
not compare strictly below the head of the right half — in particular when
they compare equal — the right half's element is taken first; hence
`mergeSort` as implemented is not stable for equal keys (although on plain
numeric inputs the output values coincide with the reference sort). -/
theorem merge_tie_takes_right (lt : α → α → Bool) (a b : α)
    (l r : List α) (h : lt a b = false) :
    merge lt (a :: l) (b :: r) = b :: merge lt (a :: l) r := by
  rw [merge, h]
  simp

/-- Witness for C3's amended theorem at the equal-keyed heads `(1, 0)` and
`(1, 1)`. -/
theorem merge_tie_takes_right_witness :
    keyLt (1, 0) (1, 1) = false ∧
    merge keyLt [(1, 0)] [(1, 1)] = [(1, 1), (1, 0)] := by
  refine ⟨by decide, ?_⟩
  have h := merge_tie_takes_right keyLt (1, 0) (1, 1) [] [] (by decide)
  rw [h]
  simp [merge]

/-- Witness for C5: sorting `[3, 1, 2]` with the in-place bubble algorithm
leaves the input cell holding `[3, 1, 2]`. -/
theorem sortArray_frame_witness :
    storeGet (handleSortArray [[3, 1, 2]] 0 (some "bubble") "t").1 0
      = [3, 1, 2] := by
  have h := (sortArray_frame [[3, 1, 2]] 0 0 (some "bubble") "t"
    (by decide)).1
  exact h.trans (by decide)

/-! Closed forms of the handlers' emission sequences. -/

/-- The progress messages of the `processData` loop: one per index passing
the cadence test, in index order. -/
theorem procStep_eq (transform : String) (dataset : List Int)
    (id : String) : ∀ l : List Nat,
    procStep transform dataset id l =
      (l.filter fun i =>
          dataset.length > 10 && i % (dataset.length / 10) == 0).map
        (fun i => Msg.progressMsg id (pctFloat i dataset.length)
          [("processed", i + 1), ("total", dataset.length)])
  | [] => rfl
  | i :: rest => by
      simp only [procStep, procStep_eq transform dataset id rest,
        List.filter_cons]
      by_cases h : (dataset.length > 10 && i % (dataset.length / 10) == 0)
        = true <;> simp [h]

/-- The sequence values of the `fibonacci` loop. -/
theorem fibStep_fst (n : Nat) (id : String) : ∀ l : List Nat,
    (fibStep n id l).1 = l.map fibJS
  | [] => rfl
  | i :: rest => by simp [fibStep, fibStep_fst n id rest]

/-- The progress messages of the `fibonacci` loop. -/
theorem fibStep_snd (n : Nat) (id : String) : ∀ l : List Nat,
    (fibStep n id l).2 =
      (l.filter fun i => n > 10 && i % (n / 10) == 0).map
        (fun i => Msg.progressMsg id (pctFloat i n)
          [("current", i), ("total", n)])
  | [] => rfl
  | i :: rest => by
      simp only [fibStep, fibStep_snd n id rest, List.filter_cons]
      by_cases h : (n > 10 && i % (n / 10) == 0) = true <;> simp [h]

/-- The sieve's outer loop only ever appends progress messages: any
per-message predicate holding on progress messages is preserved. -/
theorem sieveFold_msgs_all (limit : Nat) (id : String) (p : Msg → Bool)
    (hp : ∀ pr ex, p (Msg.progressMsg id pr ex) = true) :
    ∀ (l : List Nat) (st : (Nat → Bool) × List Nat × List Msg),
    st.2.2.all p = true → ((l.foldl (sieveStep limit id) st).2.2).all p
      = true
  | [], _, hst => hst
  | i :: rest, st, hst => by
      refine sieveFold_msgs_all limit id p hp rest _ ?_
      simp only [sieveStep]
      by_cases h : (limit > 100 && i % (limit / 10) == 0) = true <;>
        simp [h, hst, hp]

/-- The messages accumulated by the sieve are all progress messages. -/
theorem sieveRun_msgs_progress (limit : Nat) (id : String) :
    ((sieveRun limit id).2.2).all isProgressB = true :=
  sieveFold_msgs_all limit id isProgressB (fun _ _ => rfl) _ _ rfl

/-! No handler ever emits a ready message. -/

/-- Abbreviation for the non-ready test. -/
def notReady (m : Msg) : Bool := !isReadyB m

theorem calculate_no_ready (op : String) (ns : List JSNum) (id : String) :
    (runCalculate op ns id).all notReady = true := by
  unfold runCalculate handleCalculate
  split <;> simp [runHandler, notReady, isReadyB, statusOf]

theorem processData_no_ready (tf : String) (ds : List Int) (id : String) :
    (handleProcessData tf ds id).all notReady = true := by
  rw [handleProcessData, procStep_eq]
  simp only [List.all_append, Bool.and_eq_true]
  refine ⟨?_, rfl⟩
  rw [List.all_eq_true]
  intro m hm
  obtain ⟨i, _, rfl⟩ := List.mem_map.mp hm
  rfl

theorem simulateLoop_no_ready (id : String) (d steps : Nat) :
    ∀ (fuel c : Nat), (simulateLoop id d steps fuel c).all notReady = true
  | 0, _ => rfl
  | fuel + 1, c => by
      rw [simulateLoop]
      by_cases h : c + 1 ≥ steps <;>
        simp [h, simulateLoop_no_ready id d steps fuel (c + 1), notReady,
          isReadyB, statusOf]

theorem simulateWork_no_ready (d st : Option Nat) (id : String) :
    (handleSimulateWork d st id).all notReady = true := by
  rw [handleSimulateWork]
  exact simulateLoop_no_ready id (d.getD 3000) (st.getD 100) _ 0

theorem fibonacci_no_ready (nOpt : Option Int) (id : String) :
    (runFibonacci nOpt id).all notReady = true := by
  unfold runFibonacci handleFibonacci
  by_cases h : (nOpt.getD 20 < 0 || nOpt.getD 20 > 1000) = true
  · simp [h, runHandler, notReady, isReadyB, statusOf]
  · simp only [h, if_false, Bool.false_eq_true, runHandler]
    simp only [fibStep_snd, List.all_append, Bool.and_eq_true]
    refine ⟨⟨?_, rfl⟩, rfl⟩
    rw [List.all_eq_true]
    intro m hm
    obtain ⟨i, _, rfl⟩ := List.mem_map.mp hm
    rfl

theorem primeNumbers_no_ready (lOpt : Option Int) (id : String) :
    (runPrimeNumbers lOpt id).all notReady = true := by
  unfold runPrimeNumbers handlePrimeNumbers
  by_cases h : (lOpt.getD 100 < 2 || lOpt.getD 100 > 100000) = true
  · simp [h, runHandler, notReady, isReadyB, statusOf]
  · simp only [h, if_false, Bool.false_eq_true, runHandler]
    simp only [List.all_append, Bool.and_eq_true]
    refine ⟨⟨?_, rfl⟩, rfl⟩
    exact sieveFold_msgs_all _ id notReady (fun _ _ => rfl) _ _ rfl

theorem sortArray_no_ready (s : Store) (aRef : Option Nat)
    (alg : Option String) (rid : String) :
    ((runSortArray s aRef alg rid).2).all notReady = true := by
  unfold runSortArray
  cases aRef with
  | none => rfl
  | some r =>
      simp only [handleSortArray]
      split <;> rfl

/-- No response to any request is a ready message. -/
theorem route_no_ready (s : Store) (req : Request) :
    ((route s req).2).all notReady = true := by
  unfold route
  split
  · exact calculate_no_ready _ _ _
  · exact processData_no_ready _ _ _
  · exact simulateWork_no_ready _ _ _
  · exact fibonacci_no_ready _ _
  · exact primeNumbers_no_ready _ _
  · exact sortArray_no_ready _ _ _ _
  · rfl

/-- No message emitted while processing requests is a ready message. -/
theorem runRequests_no_ready (reqs : List Request) : ∀ s : Store,
    (runRequests s reqs).all notReady = true := by
  induction reqs with
  | nil => intro s; rfl
  | cons req rest ih =>
      intro s
      rw [runRequests]
      simp only [List.all_append, Bool.and_eq_true]
      exact ⟨route_no_ready s req, ih _⟩

/-! Claim C2: the progress discipline. -/

/-- Lists of at most one element are sorted. -/
theorem sorted_of_short : ∀ {l : List Int}, l.length ≤ 1 →
    l.Sorted (· ≤ ·)
  | [], _ => List.sorted_nil
  | [_], _ => List.sorted_singleton _
  | _ :: _ :: _, h => by simp at h

/-- A sorted permutation of `l` is the reference sort of `l`. -/
theorem eq_referenceSort {l l' : List Int} (hs : l'.Sorted (· ≤ ·))
    (hp : l'.Perm l) : l' = referenceSort l :=
  List.eq_of_perm_of_sorted
    (hp.trans (List.perm_insertionSort _ l).symm) hs
    (List.sorted_insertionSort _ l)

/-- The merge step returns a permutation of its two inputs. -/
theorem merge_perm (lt : α → α → Bool) :
    ∀ (l r : List α), (merge lt l r).Perm (l ++ r)
  | [], r => by simp [merge]
  | _ :: _, [] => by simp [merge]
  | a :: l, b :: r => by
      rw [merge]
      by_cases h : lt a b = true
      · rw [if_pos h]
        exact (merge_perm lt l (b :: r)).cons a
      · rw [if_neg h]
        exact ((merge_perm lt (a :: l) r).cons b).trans
          List.perm_middle.symm
termination_by l r => l.length + r.length

/-- The merge step preserves sortedness on integers. -/
theorem merge_sorted : ∀ {l r : List Int}, l.Sorted (· ≤ ·) →
    r.Sorted (· ≤ ·) → (merge intLt l r).Sorted (· ≤ ·)
  | [], r, _, hr => by simpa [merge] using hr
  | _ :: _, [], hl, _ => by simpa [merge] using hl
  | a :: l, b :: r, hl, hr => by
      rw [merge]
      rw [List.sorted_cons] at hl hr
      by_cases h : intLt a b = true
      · rw [if_pos h]
        have hab : a ≤ b := le_of_lt (by simpa [intLt] using h)
        rw [List.sorted_cons]
        refine ⟨?_, merge_sorted hl.2 (List.sorted_cons.mpr hr)⟩
        intro x hx
        rcases List.mem_append.mp
            ((merge_perm intLt l (b :: r)).mem_iff.mp hx) with hx | hx
        · exact hl.1 x hx
        · rcases List.mem_cons.mp hx with rfl | hx
          · exact hab
          · exact hab.trans (hr.1 x hx)
      · rw [if_neg h]
        have hba : b ≤ a := le_of_not_lt (by simpa [intLt] using h)
        rw [List.sorted_cons]
        refine ⟨?_, merge_sorted (List.sorted_cons.mpr hl) hr.2⟩
        intro x hx
        rcases List.mem_append.mp
            ((merge_perm intLt (a :: l) r).mem_iff.mp hx) with hx | hx
        · rcases List.mem_cons.mp hx with rfl | hx
          · exact hba
          · exact hba.trans (hl.1 x hx)
        · exact hr.1 x hx
termination_by l r => l.length + r.length

/-- `mergeSort` returns a permutation of its input. -/
theorem mergeSort_perm (lt : α → α → Bool) (arr : List α) :
    (mergeSort lt arr).Perm arr := by
  rw [mergeSort]
  by_cases h : arr.length ≤ 1
  · rw [dif_pos h]
  · rw [dif_neg h]
    refine (merge_perm lt _ _).trans ?_
    refine ((mergeSort_perm lt (arr.take (arr.length / 2))).append
      (mergeSort_perm lt (arr.drop (arr.length / 2)))).trans ?_
    rw [List.take_append_drop]
termination_by arr.length
decreasing_by
  · simp only [List.length_take]
    omega
  · simp only [List.length_drop]
    omega

/-- `mergeSort` on integers returns a sorted list. -/
theorem mergeSortInt_sorted (arr : List Int) :
    (mergeSort intLt arr).Sorted (· ≤ ·) := by
  rw [mergeSort]
  by_cases h : arr.length ≤ 1
  · rw [dif_pos h]
    exact sorted_of_short h
  · rw [dif_neg h]
    exact merge_sorted
      (mergeSortInt_sorted (arr.take (arr.length / 2)))
      (mergeSortInt_sorted (arr.drop (arr.length / 2)))
termination_by arr.length
decreasing_by
  · simp only [List.length_take]
    omega
  · simp only [List.length_drop]
    omega

/-- Unfolding of `quickSort` in the recursive case. -/
theorem quickSort_eq (arr : List Int) (h : ¬ arr.length ≤ 1) :
    quickSort arr =
      quickSort (arr.filter fun x =>
        decide (x < arr.get ⟨arr.length / 2, by omega⟩)) ++
      (arr.filter fun x =>
        !decide (x < arr.get ⟨arr.length / 2, by omega⟩) &&
        !decide (x > arr.get ⟨arr.length / 2, by omega⟩)) ++
      quickSort (arr.filter fun x =>
        !decide (x < arr.get ⟨arr.length / 2, by omega⟩) &&
        decide (x > arr.get ⟨arr.length / 2, by omega⟩)) := by
  rw [quickSort, dif_neg h]

/-- A list whose elements are all equal to `c` is sorted. -/
theorem sorted_of_all_eq (c : Int) : ∀ {l : List Int},
    (∀ x ∈ l, x = c) → l.Sorted (· ≤ ·)
  | [], _ => List.sorted_nil
  | a :: t, h => by
      rw [List.sorted_cons]
      refine ⟨fun b hb => ?_,
        sorted_of_all_eq c (fun x hx => h x (List.mem_cons_of_mem _ hx))⟩
      rw [h a (List.mem_cons_self _ _), h b (List.mem_cons_of_mem _ hb)]

/-- `quickSort` returns a permutation of its input. -/
theorem quickSort_perm (arr : List Int) : (quickSort arr).Perm arr := by
  by_cases h : arr.length ≤ 1
  · rw [quickSort, dif_pos h]
  · rw [quickSort_eq arr h]
    have ih1 := quickSort_perm (arr.filter fun x =>
      decide (x < arr.get ⟨arr.length / 2, by omega⟩))
    have ih2 := quickSort_perm (arr.filter fun x =>
      !decide (x < arr.get ⟨arr.length / 2, by omega⟩) &&
      decide (x > arr.get ⟨arr.length / 2, by omega⟩))
    have h1 := List.filter_append_perm
      (fun x => decide (x < arr.get ⟨arr.length / 2, by omega⟩)) arr
    have h2 := List.filter_append_perm
      (fun x => decide (x > arr.get ⟨arr.length / 2, by omega⟩))
      (arr.filter fun x =>
        !decide (x < arr.get ⟨arr.length / 2, by omega⟩))
    have e1 : (arr.filter fun x =>
          !decide (x < arr.get ⟨arr.length / 2, by omega⟩)).filter
          (fun x => decide (x > arr.get ⟨arr.length / 2, by omega⟩))
        = arr.filter (fun x =>
          !decide (x < arr.get ⟨arr.length / 2, by omega⟩) &&
          decide (x > arr.get ⟨arr.length / 2, by omega⟩)) := by
      rw [List.filter_filter]
      exact List.filter_congr (fun x _ => Bool.and_comm _ _)
    have e2 : (arr.filter fun x =>
          !decide (x < arr.get ⟨arr.length / 2, by omega⟩)).filter
          (fun x => !decide (x > arr.get ⟨arr.length / 2, by omega⟩))
        = arr.filter (fun x =>
          !decide (x < arr.get ⟨arr.length / 2, by omega⟩) &&
          !decide (x > arr.get ⟨arr.length / 2, by omega⟩)) := by
      rw [List.filter_filter]
      exact List.filter_congr (fun x _ => Bool.and_comm _ _)
    refine (((ih1.append (List.Perm.refl _)).append ih2).trans ?_)
    rw [List.append_assoc]
    refine (List.Perm.append_left _ ?_).trans h1
    refine (List.perm_append_comm).trans ?_
    rw [← e1, ← e2]
    exact h2
termination_by arr.length
decreasing_by
  all_goals
    refine List.length_filter_lt_length_iff_exists.mpr
      ⟨arr.get ⟨arr.length / 2, by omega⟩, arr.get_mem _ _, by simp⟩

/-- `quickSort` returns a sorted list. -/
theorem quickSort_sorted (arr : List Int) :
    (quickSort arr).Sorted (· ≤ ·) := by
  by_cases h : arr.length ≤ 1
  · rw [quickSort, dif_pos h]
    exact sorted_of_short h
  · rw [quickSort_eq arr h]
    have ih1 := quickSort_sorted (arr.filter fun x =>
      decide (x < arr.get ⟨arr.length / 2, by omega⟩))
    have ih2 := quickSort_sorted (arr.filter fun x =>
      !decide (x < arr.get ⟨arr.length / 2, by omega⟩) &&
      decide (x > arr.get ⟨arr.length / 2, by omega⟩))
    have hmemL : ∀ x ∈ quickSort (arr.filter fun x =>
        decide (x < arr.get ⟨arr.length / 2, by omega⟩)),
        x < arr.get ⟨arr.length / 2, by omega⟩ := by
      intro x hx
      have := (quickSort_perm _).mem_iff.mp hx
      exact of_decide_eq_true (List.mem_filter.mp this).2
    have hmemE : ∀ x ∈ (arr.filter fun x =>
        !decide (x < arr.get ⟨arr.length / 2, by omega⟩) &&
        !decide (x > arr.get ⟨arr.length / 2, by omega⟩)),
        x = arr.get ⟨arr.length / 2, by omega⟩ := by
      intro x hx
      have hb := (List.mem_filter.mp hx).2
      rw [Bool.and_eq_true, Bool.not_eq_true', Bool.not_eq_true'] at hb
      have h1 := of_decide_eq_false hb.1
      have h2 := of_decide_eq_false hb.2
      omega
    have hmemR : ∀ x ∈ quickSort (arr.filter fun x =>
        !decide (x < arr.get ⟨arr.length / 2, by omega⟩) &&
        decide (x > arr.get ⟨arr.length / 2, by omega⟩)),
        arr.get ⟨arr.length / 2, by omega⟩ < x := by
      intro x hx
      have := (quickSort_perm _).mem_iff.mp hx
      have hb := (List.mem_filter.mp this).2
      rw [Bool.and_eq_true] at hb
      exact of_decide_eq_true hb.2
    refine List.pairwise_append.mpr ⟨List.pairwise_append.mpr
      ⟨ih1, sorted_of_all_eq _ hmemE, ?_⟩, ih2, ?_⟩
    · intro a ha b hb
      exact le_of_lt (lt_of_lt_of_le (hmemL a ha) (hmemE b hb).ge)
    · intro a ha b hb
      rcases List.mem_append.mp ha with ha | ha
      · exact le_of_lt ((hmemL a ha).trans (hmemR b hb))
      · exact le_of_lt ((hmemE a ha).le.trans_lt (hmemR b hb))
termination_by arr.length
decreasing_by
  all_goals
    refine List.length_filter_lt_length_iff_exists.mpr
      ⟨arr.get ⟨arr.length / 2, by omega⟩, arr.get_mem _ _, by simp⟩

/-- A pass with no comparisons left does nothing. -/
theorem bpassN_zero : ∀ l : List Int, bpassN 0 l = l
  | [] => rfl
  | [_] => rfl
  | _ :: _ :: _ => rfl

/-- A truncated pass permutes the list. -/
theorem bpassN_perm : ∀ (k : Nat) (l : List Int), (bpassN k l).Perm l
  | 0, l => by rw [bpassN_zero]
  | _ + 1, [] => List.Perm.refl _
  | _ + 1, [_] => List.Perm.refl _
  | k + 1, a :: b :: t => by
      rw [show bpassN (k + 1) (a :: b :: t)
        = if decide (a > b) = true then b :: bpassN k (a :: t)
          else a :: bpassN k (b :: t) from rfl]
      by_cases h : decide (a > b) = true
      · rw [if_pos h]
        exact ((bpassN_perm k (a :: t)).cons b).trans
          (List.Perm.swap a b t)
      · rw [if_neg h]
        exact (bpassN_perm k (b :: t)).cons a

/-- A pass whose comparison budget stays within the first block never
touches a trailing block. -/
theorem bpassN_append : ∀ (k : Nat) (xs ys : List Int),
    k + 1 ≤ xs.length → bpassN k (xs ++ ys) = bpassN k xs ++ ys
  | 0, xs, ys, _ => by rw [bpassN_zero, bpassN_zero]
  | _ + 1, [], _, h => by simp at h
  | _ + 1, [_], _, h => by simp at h
  | k + 1, a :: b :: t, ys, h => by
      have e1 : bpassN (k + 1) ((a :: b :: t) ++ ys)
          = if decide (a > b) = true then b :: bpassN k ((a :: t) ++ ys)
            else a :: bpassN k ((b :: t) ++ ys) := rfl
      have e2 : bpassN (k + 1) (a :: b :: t)
          = if decide (a > b) = true then b :: bpassN k (a :: t)
            else a :: bpassN k (b :: t) := rfl
      have hk : k + 1 ≤ t.length + 1 := by
        simpa using Nat.le_of_succ_le_succ (by simpa using h)
      rw [e1, e2]
      by_cases hab : decide (a > b) = true
      · rw [if_pos hab, if_pos hab,
          bpassN_append k (a :: t) ys (by simpa using hk)]
        rfl
      · rw [if_neg hab, if_neg hab,
          bpassN_append k (b :: t) ys (by simpa using hk)]
        rfl

/-- A full pass over a block moves a maximum of the block to its end. -/
theorem bpass_full : ∀ (t : List Int) (c : Int),
    ∃ ys M, bpassN t.length (c :: t) = ys ++ [M] ∧
      (ys ++ [M]).Perm (c :: t) ∧ ∀ x ∈ ys ++ [M], x ≤ M
  | [], c => ⟨[], c, rfl, List.Perm.refl _, by simp⟩
  | b :: t', c => by
      have e : bpassN (b :: t').length (c :: b :: t')
          = if decide (c > b) = true then b :: bpassN t'.length (c :: t')
            else c :: bpassN t'.length (b :: t') := rfl
      by_cases hcb : decide (c > b) = true
      · obtain ⟨ys, M, h1, h2, h3⟩ := bpass_full t' c
        have hcM : c ≤ M := h3 c (h2.symm.subset (List.mem_cons_self _ _))
        refine ⟨b :: ys, M, ?_, ?_, ?_⟩
        · rw [e, if_pos hcb, h1]
          rfl
        · rw [show ((b :: ys) ++ [M] : List Int) = b :: (ys ++ [M])
            from rfl]
          exact (h2.cons b).trans (List.Perm.swap c b t')
        · intro x hx
          rcases List.mem_cons.mp (show x ∈ b :: (ys ++ [M]) from hx)
            with rfl | hx
          · exact le_of_lt (lt_of_lt_of_le (of_decide_eq_true hcb) hcM)
          · exact h3 x hx
      · obtain ⟨ys, M, h1, h2, h3⟩ := bpass_full t' b
        have hbM : b ≤ M := h3 b (h2.symm.subset (List.mem_cons_self _ _))
        have hcb2 : c ≤ b := le_of_not_lt (by simpa using hcb)
        refine ⟨c :: ys, M, ?_, ?_, ?_⟩
        · rw [e, if_neg hcb, h1]
          rfl
        · rw [show ((c :: ys) ++ [M] : List Int) = c :: (ys ++ [M])
            from rfl]
          exact h2.cons c
        · intro x hx
          rcases List.mem_cons.mp (show x ∈ c :: (ys ++ [M]) from hx)
            with rfl | hx
          · exact hcb2.trans hbM
          · exact h3 x hx

/-- Invariant of the outer bubble loop: after `m` passes the final `m`
positions hold a sorted suffix dominating the unsorted front. -/
theorem bubble_fold_inv (arr : List Int) : ∀ (m : Nat),
    m ≤ arr.length - 1 →
    ∃ front back,
      (List.range m).foldl
          (fun acc i => bpassN (arr.length - i - 1) acc) arr
        = front ++ back ∧
      front.length = arr.length - m ∧
      back.Sorted (· ≤ ·) ∧
      (∀ x ∈ front, ∀ y ∈ back, x ≤ y) ∧
      (front ++ back).Perm arr
  | 0, _ => ⟨arr, [], by simp, by simp, List.sorted_nil, by simp, by simp⟩
  | m + 1, hm => by
      obtain ⟨front, back, h1, h2, h3, h4, h5⟩ :=
        bubble_fold_inv arr m (by omega)
      have hn : 2 ≤ arr.length - m := by omega
      rcases front with _ | ⟨c, t⟩
      · simp at h2
        omega
      have ht : arr.length - m - 1 = t.length := by
        simp at h2
        omega
      rw [List.range_succ, List.foldl_append, List.foldl_cons,
        List.foldl_nil, h1]
      rw [show arr.length - m - 1 = t.length from ht]
      rw [bpassN_append t.length (c :: t) back (by simp)]
      obtain ⟨ys, M, e, p, bnd⟩ := bpass_full t c
      have hyslen : ys.length = t.length := by
        have := p.length_eq
        simp at this
        omega
      refine ⟨ys, M :: back, ?_, ?_, ?_, ?_, ?_⟩
      · rw [e, List.append_assoc]
        rfl
      · simp at h2 ⊢
        omega
      · rw [List.sorted_cons]
        refine ⟨fun y hy => ?_, h3⟩
        have hMfront : M ∈ c :: t :=
          p.subset (by simp)
        exact h4 M hMfront y hy
      · intro x hx y hy
        rcases List.mem_cons.mp hy with rfl | hy
        · exact bnd x (List.mem_append.mpr (Or.inl hx))
        · exact h4 x (p.subset (List.mem_append.mpr (Or.inl hx))) y hy
      · rw [show (ys ++ M :: back : List Int) = (ys ++ [M]) ++ back
          from (List.append_assoc ys [M] back).symm]
        exact (p.append_right back).trans h5

/-- Unfolding of `bubbleList`. -/
theorem bubbleList_eq (arr : List Int) :
    bubbleList arr = (List.range (arr.length - 1)).foldl
      (fun acc i => bpassN (arr.length - i - 1) acc) arr := rfl

/-- `bubbleSort` returns a sorted permutation of its input. -/
theorem bubbleList_perm_sorted (arr : List Int) :
    (bubbleList arr).Perm arr ∧ (bubbleList arr).Sorted (· ≤ ·) := by
  by_cases h : arr.length ≤ 1
  · have h0 : arr.length - 1 = 0 := by omega
    rw [bubbleList_eq, h0]
    exact ⟨List.Perm.refl _, sorted_of_short h⟩
  · obtain ⟨front, back, h1, h2, h3, h4, h5⟩ :=
      bubble_fold_inv arr (arr.length - 1) (le_refl _)
    have hf1 : front.length = 1 := by omega
    rcases front with _ | ⟨c, t⟩
    · simp at hf1
    rcases t with _ | ⟨d, t'⟩
    · rw [bubbleList_eq, h1]
      constructor
      · exact h5
      · rw [show ([c] ++ back : List Int) = c :: back from rfl,
          List.sorted_cons]
        exact ⟨fun y hy => h4 c (by simp) y hy, h3⟩
    · simp at hf1

/-- C1: for every finite numeric sequence, the three sort functions
`quickSort`, `mergeSort` and `bubbleSort` each return the same result as
the reference ascending total-order sort (a sorted permutation of the
input). -/
theorem sort_algorithms_agree (l : List Int) :
    quickSort l = referenceSort l ∧ mergeSortInt l = referenceSort l ∧
    bubbleList l = referenceSort l :=
  ⟨eq_referenceSort (quickSort_sorted l) (quickSort_perm l),
   eq_referenceSort (mergeSortInt_sorted l) (mergeSort_perm intLt l),
   eq_referenceSort (bubbleList_perm_sorted l).2
     (bubbleList_perm_sorted l).1⟩

/-! Claim C7: the Fibonacci handler. -/

set_option maxRecDepth 8000

/-- Below index 79 every Fibonacci value is smaller than `2 ^ 53`, so the
double-precision loop agrees with the exact Fibonacci function. -/
theorem fibJS_agree :
    ((List.range 79).all fun i => fibJS i == Nat.fib i) = true := by decide

/-- C7 counterexample: `fib(79) = 14472334024676221` exceeds `2 ^ 53`, so
the double-precision additions of the source round it; the single success
response for `n = 79` (inside the claimed range `[0, 1000]`) carries
`nthValue = 14472334024676220`, which is not `fib(79)`. -/
theorem fibonacci_double_cex :
    (runFibonacci (some 79) "t").getLast?
      = some (Msg.fibSuccess "t" ((List.range 80).map fibJS) 80
          14472334024676220) ∧
    Nat.fib 79 = 14472334024676221 ∧
    (14472334024676220 : Nat) ≠ 14472334024676221 := by
  refine ⟨by decide, by decide, by decide⟩

/-- C7 (amended): for every integer `n` in `[0, 1000]`, `fibonacci` emits
progress messages (only) followed by a single success response whose
result is the double-precision evaluation of `fib(0) .. fib(n)`, whose
length field is `n + 1` and whose `nthValue` field is the double-precision
`fib(n)`; for `n ≤ 78` (all values below `2 ^ 53`) this is exactly the
sequence `fib(0) .. fib(n)` with `nthValue = fib(n)`.  For every `n`
outside `[0, 1000]` it fails with the range error before emitting any
progress or success message. -/
theorem fibonacci_spec (n : Int) (id : String) :
    (0 ≤ n → n ≤ 1000 →
      runFibonacci (some n) id =
        ((List.range (n.toNat + 1)).filter
            (fun i => n.toNat > 10 && i % (n.toNat / 10) == 0)).map
          (fun i => Msg.progressMsg id (pctFloat i n.toNat)
            [("current", i), ("total", n.toNat)]) ++
        [Msg.fibSuccess id ((List.range (n.toNat + 1)).map fibJS)
          (n.toNat + 1) (fibJS n.toNat)]) ∧
    (0 ≤ n → n ≤ 78 →
      (List.range (n.toNat + 1)).map fibJS
        = (List.range (n.toNat + 1)).map Nat.fib ∧
      fibJS n.toNat = Nat.fib n.toNat) ∧
    ((n < 0 ∨ 1000 < n) →
      runFibonacci (some n) id = [Msg.errorMsg id "n必须在0到1000之间"]) := by
  have hag : ∀ i, i ≤ 78 → fibJS i = Nat.fib i := by
    have h := fibJS_agree
    rw [List.all_eq_true] at h
    intro i hi
    have := h i (List.mem_range.mpr (by omega))
    simpa using this
  refine ⟨?_, ?_, ?_⟩
  · intro h0 h1
    have hcond : (decide (n < 0) || decide (n > 1000)) = false := by
      rw [Bool.or_eq_false_iff]
      constructor <;> simp <;> omega
    unfold runFibonacci handleFibonacci
    simp only [Option.getD_some, hcond, Bool.false_eq_true, if_false,
      runHandler]
    rw [List.append_nil]
    congr 1
    · rw [fibStep_snd]
    · have hfst : (fibStep n.toNat id (List.range (n.toNat + 1))).1
          = (List.range (n.toNat + 1)).map fibJS := fibStep_fst _ _ _
      have hlen : ((List.range (n.toNat + 1)).map fibJS).length
          = n.toNat + 1 := by simp
      have hgetD : ((List.range (n.toNat + 1)).map fibJS).getD n.toNat 0
          = fibJS n.toNat := by
        rw [List.getD_eq_getElem?_getD, List.getElem?_map,
          List.getElem?_range (by omega)]
        rfl
      rw [hfst, hlen, hgetD]
  · intro h0 h78
    constructor
    · refine List.map_congr_left (fun i hi => ?_)
      have : i < n.toNat + 1 := List.mem_range.mp hi
      exact hag i (by omega)
    · exact hag n.toNat (by omega)
  · intro h
    have hcond : (decide (n < 0) || decide (n > 1000)) = true := by
      rcases h with h | h
      · rw [Bool.or_eq_true]
        exact Or.inl (by simpa using h)
      · rw [Bool.or_eq_true]
        exact Or.inr (by simpa using h)
    unfold runFibonacci handleFibonacci
    simp only [Option.getD_some, hcond, if_true]
    rfl

/-- Witness for C7's amended theorem at `n = 10` (in range, exact values)
and `n = 1001` (out of range). -/
theorem fibonacci_spec_witness :
    runFibonacci (some 10) "t" =
      [Msg.fibSuccess "t" [0, 1, 1, 2, 3, 5, 8, 13, 21, 34, 55] 11 55] ∧
    runFibonacci (some 1001) "t"
      = [Msg.errorMsg "t" "n必须在0到1000之间"] := by
  constructor
  · have h := (fibonacci_spec 10 "t").1 (by norm_num) (by norm_num)
    rw [h]
    decide
  · exact (fibonacci_spec 1001 "t").2.2 (by norm_num)

/-! Claim C8: the prime sieve. -/

/-- Effect of the inner marking loop, given enough fuel: exactly the
indices `j, j + i, j + 2i, …` up to `limit` are set to false. -/
theorem markLoop_spec (L i : Nat) (hi : 0 < i) : ∀ (fuel j : Nat)
    (f : Nat → Bool) (n : Nat), L + 1 ≤ j + fuel →
    markLoop L i fuel j f n =
      if j ≤ n ∧ n ≤ L ∧ i ∣ (n - j) then false else f n
  | 0, j, f, n, hf => by
      rw [show markLoop L i 0 j f = f from rfl, if_neg]
      rintro ⟨h1, h2, -⟩
      omega
  | fuel + 1, j, f, n, hf => by
      rw [show markLoop L i (fuel + 1) j f
        = if j ≤ L then markLoop L i fuel (j + i) (updFalse f j) else f
        from rfl]
      by_cases hjL : j ≤ L
      · rw [if_pos hjL,
          markLoop_spec L i hi fuel (j + i) (updFalse f j) n (by omega)]
        by_cases hnj : n = j
        · subst hnj
          rw [if_neg (by omega), if_pos ⟨le_refl n, hjL, by simp⟩]
          simp [updFalse]
        · have hupd : updFalse f j n = f n := by simp [updFalse, hnj]
          by_cases hC : j ≤ n ∧ n ≤ L ∧ i ∣ (n - j)
          · obtain ⟨h1, h2, h3⟩ := hC
            have hjn : j < n := by omega
            have hge : i ≤ n - j := Nat.le_of_dvd (by omega) h3
            have hdvd : i ∣ n - (j + i) := by
              have he : n - (j + i) = (n - j) - i := by omega
              rw [he]
              exact Nat.dvd_sub' h3 (dvd_refl i)
            rw [if_pos ⟨by omega, h2, hdvd⟩, if_pos ⟨h1, h2, h3⟩]
          · rw [if_neg hC, if_neg, hupd]
            rintro ⟨h1, h2, h3⟩
            refine hC ⟨by omega, h2, ?_⟩
            have : n - j = (n - (j + i)) + i := by omega
            rw [this]
            exact Nat.dvd_add h3 (dvd_refl i)
      · rw [if_neg hjL, if_neg]
        rintro ⟨h1, h2, -⟩
        omega

/-- Marking the multiples of `i` from `i * i` hits exactly the multiples of
`i` at or beyond `i * i`. -/
theorem markLoop_sq (L i : Nat) (hi : 0 < i) (f : Nat → Bool) (n : Nat) :
    markLoop L i (L + 1) (i * i) f n =
      if i * i ≤ n ∧ n ≤ L ∧ i ∣ n then false else f n := by
  rw [markLoop_spec L i hi (L + 1) (i * i) f n (by omega)]
  by_cases hC : i * i ≤ n ∧ n ≤ L ∧ i ∣ n
  · have hdvd : i ∣ n - i * i := Nat.dvd_sub' hC.2.2 (dvd_mul_left i i)
    rw [if_pos ⟨hC.1, hC.2.1, hdvd⟩, if_pos hC]
  · have hnc : ¬(i * i ≤ n ∧ n ≤ L ∧ i ∣ n - i * i) := by
      rintro ⟨h1, h2, h3⟩
      refine hC ⟨h1, h2, ?_⟩
      have he : n = (n - i * i) + i * i := by omega
      rw [he]
      exact Nat.dvd_add h3 (dvd_mul_left i i)
    rw [if_neg hnc, if_neg hC]

/-- For `2 ≤ i`, having a prime divisor `p < i` with `p * p ≤ i` is
equivalent to being composite. -/
theorem small_prime_divisor_iff (i : Nat) (h2 : 2 ≤ i) :
    (∃ p, Nat.Prime p ∧ p ≤ i - 1 ∧ p ∣ i ∧ p * p ≤ i) ↔ ¬ Nat.Prime i := by
  constructor
  · rintro ⟨p, pp, hpc, hpd, -⟩ hi
    rcases (Nat.Prime.eq_one_or_self_of_dvd hi p hpd) with rfl | rfl
    · exact Nat.Prime.one_lt pp |>.ne rfl
    · omega
  · intro hni
    refine ⟨i.minFac, Nat.minFac_prime (by omega), ?_, Nat.minFac_dvd i, ?_⟩
    · have hle : i.minFac ≤ i := Nat.le_of_dvd (by omega) (Nat.minFac_dvd i)
      have hne : i.minFac ≠ i := by
        intro he
        exact hni (Nat.prime_def_minFac.mpr ⟨h2, he⟩)
      omega
    · have := Nat.minFac_sq_le_self (by omega : 0 < i) hni
      simpa [Nat.pow_two] using this

/-- Projections of a sieve step at a still-marked index. -/
theorem sieveStep_true (L : Nat) (id : String)
    (st : (Nat → Bool) × List Nat × List Msg) (i : Nat)
    (h : st.1 i = true) :
    (sieveStep L id st i).1 = markLoop L i (L + 1) (i * i) st.1 ∧
    (sieveStep L id st i).2.1 = st.2.1 ++ [i] := by
  simp [sieveStep, h]

/-- Projections of a sieve step at an already-unmarked index. -/
theorem sieveStep_false (L : Nat) (id : String)
    (st : (Nat → Bool) × List Nat × List Msg) (i : Nat)
    (h : st.1 i = false) :
    (sieveStep L id st i).1 = st.1 ∧
    (sieveStep L id st i).2.1 = st.2.1 := by
  simp [sieveStep, h]

/-- Invariant of the sieve's outer loop after processing `i = 2 .. c + 1`:
the recorded list is exactly the primes among them, in order, and a cell
`n ≤ limit` is unmarked exactly when `n < 2` or `n` has a prime divisor
`p ≤ c + 1` with `p * p ≤ n`. -/
theorem sieve_inv (L : Nat) (id : String) : ∀ (c : Nat), c + 1 ≤ L →
    ((List.range' 2 c).foldl (sieveStep L id) (sieveInit, [], [])).2.1
      = (List.range' 2 c).filter (fun m => decide (Nat.Prime m)) ∧
    (∀ n, n ≤ L →
      ((((List.range' 2 c).foldl (sieveStep L id) (sieveInit, [], [])).1 n)
          = false ↔
        (n < 2 ∨ ∃ p, Nat.Prime p ∧ p ≤ c + 1 ∧ p ∣ n ∧ p * p ≤ n)))
  | 0, _ => by
      refine ⟨rfl, fun n _ => ?_⟩
      have hinit : sieveInit n = false ↔ n < 2 := by
        rw [show sieveInit n = !(n == 0 || n == 1) from rfl]
        simp only [Bool.not_eq_false', Bool.or_eq_true, beq_iff_eq]
        omega
      constructor
      · intro h
        exact Or.inl (hinit.mp h)
      · rintro (h | ⟨p, pp, hpc, -, -⟩)
        · exact hinit.mpr h
        · have := pp.two_le
          omega
  | c + 1, hc => by
      obtain ⟨hp, hf⟩ := sieve_inv L id c (by omega)
      have hrange : List.range' 2 (c + 1) = List.range' 2 c ++ [c + 2] := by
        rw [List.range'_concat 2 c]
        congr 1
        simp
        omega
      have hiL : c + 2 ≤ L := by omega
      have hfiff :
          ((List.range' 2 c).foldl (sieveStep L id)
            (sieveInit, [], [])).1 (c + 2) = false ↔
          ¬ Nat.Prime (c + 2) := by
        rw [hf (c + 2) hiL]
        have hs := small_prime_divisor_iff (c + 2) (by omega)
        constructor
        · rintro (h | ⟨p, pp, hpc, hpd, hps⟩)
          · omega
          · exact hs.mp ⟨p, pp, by omega, hpd, hps⟩
        · intro h
          obtain ⟨p, pp, hpc, hpd, hps⟩ := hs.mpr h
          exact Or.inr ⟨p, pp, by omega, hpd, hps⟩
      rw [hrange, List.foldl_append, List.foldl_cons, List.foldl_nil,
        List.filter_append]
      by_cases hb : Nat.Prime (c + 2)
      · have hbt : ((List.range' 2 c).foldl (sieveStep L id)
            (sieveInit, [], [])).1 (c + 2) = true := by
          rcases Bool.eq_false_or_eq_true (((List.range' 2 c).foldl
            (sieveStep L id) (sieveInit, [], [])).1 (c + 2)) with h | h
          · exact h
          · exact absurd (hfiff.mp h) (not_not_intro hb)
        obtain ⟨hsf, hsp⟩ := sieveStep_true L id _ (c + 2) hbt
        constructor
        · rw [hsp, hp]
          congr 1
          simp [hb]
        · intro n hn
          rw [hsf, markLoop_sq L (c + 2) (by omega) _ n]
          by_cases hC : (c + 2) * (c + 2) ≤ n ∧ n ≤ L ∧ (c + 2) ∣ n
          · rw [if_pos hC]
            exact iff_of_true rfl
              (Or.inr ⟨c + 2, hb, le_refl _, hC.2.2, hC.1⟩)
          · rw [if_neg hC, hf n hn]
            constructor
            · rintro (h | ⟨p, pp, hpc, hpd, hps⟩)
              · exact Or.inl h
              · exact Or.inr ⟨p, pp, by omega, hpd, hps⟩
            · rintro (h | ⟨p, pp, hpc, hpd, hps⟩)
              · exact Or.inl h
              · by_cases hpe : p ≤ c + 1
                · exact Or.inr ⟨p, pp, hpe, hpd, hps⟩
                · have hpeq : p = c + 2 := by omega
                  subst hpeq
                  exact absurd ⟨hps, hn, hpd⟩ hC
      · have hbf : ((List.range' 2 c).foldl (sieveStep L id)
            (sieveInit, [], [])).1 (c + 2) = false := hfiff.mpr hb
        obtain ⟨hsf, hsp⟩ := sieveStep_false L id _ (c + 2) hbf
        constructor
        · rw [hsp, hp]
          have : ([c + 2].filter (fun m => decide (Nat.Prime m)))
              = [] := by
            simp [hb]
          rw [this, List.append_nil]
        · intro n hn
          rw [hsf, hf n hn]
          constructor
          · rintro (h | ⟨p, pp, hpc, hpd, hps⟩)
            · exact Or.inl h
            · exact Or.inr ⟨p, pp, by omega, hpd, hps⟩
          · rintro (h | ⟨p, pp, hpc, hpd, hps⟩)
            · exact Or.inl h
            · by_cases hpe : p ≤ c + 1
              · exact Or.inr ⟨p, pp, hpe, hpd, hps⟩
              · have hpeq : p = c + 2 := by omega
                subst hpeq
                exact absurd pp hb

/-- The sieve records exactly the primes `2 .. limit`, in order. -/
theorem sievePrimes_spec (L : Nat) (id : String) (hL : 2 ≤ L) :
    (sieveRun L id).2.1
      = (List.range' 2 (L - 1)).filter (fun m => decide (Nat.Prime m)) :=
  (sieve_inv L id (L - 1) (by omega)).1

/-- Membership in the sieve's output. -/
theorem sievePrimes_mem (L : Nat) (id : String) (hL : 2 ≤ L) (p : Nat) :
    p ∈ (sieveRun L id).2.1 ↔ Nat.Prime p ∧ p ≤ L := by
  rw [sievePrimes_spec L id hL, List.mem_filter, List.mem_range'_1,
    decide_eq_true_eq]
  constructor
  · rintro ⟨⟨h1, h2⟩, h3⟩
    exact ⟨h3, by omega⟩
  · rintro ⟨h1, h2⟩
    exact ⟨⟨h1.two_le, by omega⟩, h1⟩

/-- The sieve's output is strictly increasing. -/
theorem sievePrimes_chain (L : Nat) (id : String) (hL : 2 ≤ L) :
    List.Chain' (· < ·) (sieveRun L id).2.1 := by
  rw [sievePrimes_spec L id hL]
  exact List.chain'_iff_pairwise.mpr
    ((List.pairwise_lt_range' 2 (L - 1)).filter _)

/-- C8: `primeNumbers` fails with the range error exactly when `limit` lies
outside `[2, 100000]`; for every `limit` in that range it emits progress
messages (only) followed by a single success response whose result is
exactly the primes up to `limit` in increasing order and whose count field
is the length of that list. -/
theorem primeNumbers_spec (limit : Int) (id : String) :
    ((limit < 2 ∨ 100000 < limit) →
      runPrimeNumbers (some limit) id
        = [Msg.errorMsg id "limit必须在2到100000之间"]) ∧
    (2 ≤ limit → limit ≤ 100000 →
      runPrimeNumbers (some limit) id =
        (sieveRun limit.toNat id).2.2 ++
          [Msg.primeSuccess id (sieveRun limit.toNat id).2.1
            (sieveRun limit.toNat id).2.1.length limit.toNat] ∧
      ((sieveRun limit.toNat id).2.2).all isProgressB = true ∧
      (∀ p : Nat, p ∈ (sieveRun limit.toNat id).2.1 ↔
        Nat.Prime p ∧ p ≤ limit.toNat) ∧
      List.Chain' (· < ·) (sieveRun limit.toNat id).2.1) := by
  constructor
  · intro h
    have hcond : (decide (limit < 2) || decide (limit > 100000)) = true := by
      rcases h with h | h
      · exact Bool.or_eq_true _ _ |>.mpr (Or.inl (by simpa using h))
      · exact Bool.or_eq_true _ _ |>.mpr (Or.inr (by simpa using h))
    unfold runPrimeNumbers handlePrimeNumbers
    simp only [Option.getD_some, hcond, if_true]
    rfl
  · intro h2 h100000
    have hcond : (decide (limit < 2) || decide (limit > 100000)) = false := by
      rw [Bool.or_eq_false_iff]
      constructor <;> simp <;> omega
    have hL : 2 ≤ limit.toNat := by omega
    refine ⟨?_, sieveRun_msgs_progress _ id,
      sievePrimes_mem _ id hL, sievePrimes_chain _ id hL⟩
    unfold runPrimeNumbers handlePrimeNumbers
    simp only [Option.getD_some, hcond, Bool.false_eq_true, if_false,
      runHandler]
    rw [List.append_nil]

/-- Witness for C8 at `limit = 10` (in range) and `limit = 1` (out of
range). -/
theorem primeNumbers_spec_witness :
    runPrimeNumbers (some 10) "t"
      = [Msg.primeSuccess "t" [2, 3, 5, 7] 4 10] ∧
    runPrimeNumbers (some 1) "t"
      = [Msg.errorMsg "t" "limit必须在2到100000之间"] := by
  constructor
  · have h := ((primeNumbers_spec 10 "t").2 (by norm_num) (by norm_num)).1
    rw [h]
    decide
  · exact (primeNumbers_spec 1 "t").1 (by norm_num)

/-! Claim C4: the startup ready message. -/

/-- C4 counterexample: the one ready response emitted at startup carries
the id `"init"`, not `"ready-token"`. -/
theorem ready_id_cex :
    workerRun [] [] =
      [Msg.ready "init" "Worker已初始化，等待任务" knownCommands] ∧
    msgIdOf readyMsg = "init" ∧ "init" ≠ "ready-token" := by
  refine ⟨rfl, rfl, by decide⟩

/-- C4 (amended): at startup, before any request is processed, the worker
emits exactly one ready response; its id is the fixed token `"init"` and it
carries the enumerated list of the six supported command names.  No
response to any subsequent request is ever a ready message. -/
theorem startup_single_ready (s : Store) (reqs : List Request) :
    workerRun s reqs =
      Msg.ready "init" "Worker已初始化，等待任务"
        ["calculate", "processData", "simulateWork", "fibonacci",
         "primeNumbers", "sortArray"] :: runRequests s reqs ∧
    (runRequests s reqs).all notReady = true :=
  ⟨rfl, runRequests_no_ready reqs s⟩
